import Mathlib

/-!
Shallow embedding of `src/hashtable.c`: a fixed-capacity separate-chaining
hash table from C strings to `int` values.

Modelling conventions:
* a C string is the list of its byte values before the NUL terminator;
  a well-formed string has every byte nonzero and below 256 (`ValidKey`);
* a node pointer is rendered as the list of nodes reachable from it through
  the `next` field (`[]` is `NULL`, the head of the list is the pointee);
* the bucket array is a function from bucket index to chain;
* `malloc` is assumed to succeed; `hashtable_set` additionally reports how
  many nodes the call obtained from `malloc`, so allocation effects can be
  stated.
-/

namespace Hashtable

/-- Constant `HASHTABLE_NODE_COUNT` (the bucket count N) from hashtable.c. -/
def HASHTABLE_NODE_COUNT : Nat := 100

/-- Constant `HASHTABLE_KEY_SIZE` (the key buffer size K) from hashtable.c. -/
def HASHTABLE_KEY_SIZE : Nat := 32

/-- Well-formed C string content: every byte is nonzero and fits in a byte. -/
def ValidKey (k : List Nat) : Prop := ∀ b ∈ k, 0 < b ∧ b < 256

instance : DecidablePred ValidKey := fun _ => List.decidableBAll _ _

/-- Node `hashtable_node_t`: the K-byte key buffer and the int value. The
`next` pointer is represented positionally: a chain is a `List` of nodes. -/
structure hashtable_node_t where
  key : List Nat
  value : Int
deriving DecidableEq

/-- Effect of `strncpy(n->key, key, HASHTABLE_KEY_SIZE)` on the K-byte
buffer: copies at most K bytes of the string and zero-fills the remainder of
the buffer; when the string has K or more bytes, exactly K bytes are copied
and no terminator is written. -/
def strncpy_key (key : List Nat) : List Nat :=
  key.take HASHTABLE_KEY_SIZE ++ List.replicate (HASHTABLE_KEY_SIZE - key.length) 0

/-- Test `strncmp(s1, s2, n) == 0` on byte lists; moving past the end of a
list reads the NUL terminator, and the comparison stops at the first NUL
exactly as in C. -/
def strncmp_eq : List Nat → List Nat → Nat → Bool
  | _, _, 0 => true
  | s1, s2, n + 1 =>
    if s1.headD 0 = s2.headD 0 then
      if s1.headD 0 = 0 then true else strncmp_eq s1.tail s2.tail n
    else false

/-- Model of `strnlen(s, n)`: the length of the string, capped at n. -/
def strnlen (s : List Nat) (n : Nat) : Nat := min s.length n

/-- Loop of `calculate_hash`: `sum += key[i]` while `key[i]` is nonzero and
`i < HASHTABLE_KEY_SIZE`. -/
def hash_sum : List Nat → Nat → Nat → Nat
  | [], _, sum => sum
  | b :: rest, i, sum =>
    if i < HASHTABLE_KEY_SIZE then hash_sum rest (i + 1) (sum + b) else sum

/-- Model of `calculate_hash` from hashtable.c. -/
def calculate_hash (key : List Nat) : Nat :=
  hash_sum key 0 0 % HASHTABLE_NODE_COUNT

/-- Model of `hashtable_node_create`: a fresh node holding the strncpy-filled
buffer and the given value, with `next = NULL` (a one-node chain); `malloc`
is assumed to succeed. -/
def hashtable_node_create (key : List Nat) (value : Int) : List hashtable_node_t :=
  [⟨strncpy_key key, value⟩]

/-- Walk of `hashtable_node_insert`: advance `current` until `current->next`
is NULL, then `current->next = child` followed by `child->next = NULL`, so
only the head node of `child` ends up linked. The walk is entered on a node,
so the `[]` case never arises in the program. -/
def insert_walk : List hashtable_node_t → List hashtable_node_t → List hashtable_node_t
  | [], child => child.take 1
  | [last], child => last :: child.take 1
  | c :: rest, child => c :: insert_walk rest child

/-- Model of `hashtable_node_insert parent child`: if `parent->next` is NULL,
link `child` directly and return early (the child keeps whatever `next` it
had); otherwise walk to the chain tail, link `child` there and force
`child->next` to NULL. -/
def hashtable_node_insert (parent child : List hashtable_node_t) : List hashtable_node_t :=
  match parent with
  | [] => []
  | [p] => p :: child
  | p :: rest => p :: insert_walk rest child

/-- Scan loop of `hashtable_node_find_by_key`; the returned pointer is
rendered as the index (in the chain) of the first node whose buffer
strncmp-matches `key`. -/
def find_loop : List hashtable_node_t → List Nat → Option Nat
  | [], _ => none
  | n :: rest, key =>
    if strncmp_eq n.key key HASHTABLE_KEY_SIZE then some 0
    else (find_loop rest key).map (· + 1)

/-- Model of `hashtable_node_find_by_key`: refuses keys of length ≥ K
(`strnlen(key, K) >= K`), otherwise scans the chain. -/
def hashtable_node_find_by_key (chain : List hashtable_node_t) (key : List Nat) :
    Option Nat :=
  if HASHTABLE_KEY_SIZE ≤ strnlen key HASHTABLE_KEY_SIZE then none
  else find_loop chain key

/-- Table `hashtable_t`: the bucket array, as a function from index to chain. -/
structure hashtable_t where
  array : Nat → List hashtable_node_t

/-- Store a chain into one bucket slot: `ht->array[i] = c`. -/
def hashtable_t.write (ht : hashtable_t) (i : Nat) (c : List hashtable_node_t) :
    hashtable_t :=
  ⟨fun j => if j = i then c else ht.array j⟩

/-- Model of `hashtable_create`: `malloc` plus `memset 0`, every slot NULL. -/
def hashtable_create : hashtable_t := ⟨fun _ => []⟩

/-- Loop of `hashtable_get`: scan the bucket chain and return the value of
the first strncmp-matching node, or 0 when the scan falls off the chain. -/
def get_loop : List hashtable_node_t → List Nat → Int
  | [], _ => 0
  | n :: rest, key =>
    if strncmp_eq n.key key HASHTABLE_KEY_SIZE then n.value else get_loop rest key

/-- Model of `hashtable_get` (note: it performs no key length check). -/
def hashtable_get (ht : hashtable_t) (key : List Nat) : Int :=
  get_loop (ht.array (calculate_hash key)) key

/-- Pointer write `found->value = value`: overwrite the value of the chain
node at index `i`, leaving its key buffer and the rest of the chain alone. -/
def chain_set_value : List hashtable_node_t → Nat → Int → List hashtable_node_t
  | [], _, _ => []
  | n :: rest, 0, v => ⟨n.key, v⟩ :: rest
  | n :: rest, i + 1, v => n :: chain_set_value rest i v

/-- Result of `hashtable_set`: the updated table, the C return value, and the
number of nodes this call obtained from `malloc`. -/
structure SetResult where
  ht : hashtable_t
  ret : Int
  allocated : Nat

/-- Model of `hashtable_set`: it calls `hashtable_node_create` (one `malloc`)
unconditionally, then either installs the fresh node in an empty slot,
appends it when the key is not found in the chain, or overwrites the found
node in place — in which case the fresh node is neither linked nor freed. -/
def hashtable_set (ht : hashtable_t) (key : List Nat) (value : Int) : SetResult :=
  let hash := calculate_hash key
  let node := hashtable_node_create key value
  if (ht.array hash).isEmpty then
    ⟨ht.write hash node, 0, 1⟩
  else
    match hashtable_node_find_by_key (ht.array hash) key with
    | none => ⟨ht.write hash (hashtable_node_insert (ht.array hash) node), 0, 1⟩
    | some i => ⟨ht.write hash (chain_set_value (ht.array hash) i value), 0, 1⟩

/-- Run a list of (key, value) `hashtable_set` calls from left to right. -/
def run_sets (ht : hashtable_t) : List (List Nat × Int) → hashtable_t
  | [] => ht
  | (k, v) :: ops => run_sets (hashtable_set ht k v).ht ops

/-- Byte values of the demo key from `main`. -/
def eric : List Nat := [101, 114, 105, 99]

/-- An anagram of `eric` (same byte values in another order). -/
def rice : List Nat := [114, 105, 99, 101]

/-- A key of length exactly K (32 times the byte of a lowercase a). -/
def aKey32 : List Nat := List.replicate 32 97

/-- A key of length K + 1 (33 times the byte of a lowercase a). -/
def aKey33 : List Nat := List.replicate 33 97

/-! Basic lemmas about the embedded operations. -/

@[simp]
theorem hashtable_t.write_array (ht : hashtable_t) (i : Nat) (c : List hashtable_node_t)
    (j : Nat) : (ht.write i c).array j = if j = i then c else ht.array j := rfl

/-- A buffer that consists of the key followed by zero padding strncmp-matches
the key itself, for any comparison bound. -/
theorem strncmp_eq_append_replicate (k : List Nat) (z n : Nat) :
    strncmp_eq (k ++ List.replicate z 0) k n = true := by
  induction n generalizing k with
  | zero => rfl
  | succ n ih =>
    cases k with
    | nil => cases z <;> simp [strncmp_eq, List.replicate_succ]
    | cons c rest =>
      by_cases hc : c = 0 <;> simp [strncmp_eq, hc, ih rest]

/-- For a key shorter than the buffer, `strncpy` stores the key followed by
zero padding. -/
theorem strncpy_key_of_lt {k : List Nat} (hlen : k.length < HASHTABLE_KEY_SIZE) :
    strncpy_key k = k ++ List.replicate (HASHTABLE_KEY_SIZE - k.length) 0 := by
  unfold strncpy_key
  rw [List.take_of_length_le (Nat.le_of_lt hlen)]

/-- The stored buffer of a key shorter than the buffer strncmp-matches it. -/
theorem strncmp_eq_strncpy_key {k : List Nat} (hlen : k.length < HASHTABLE_KEY_SIZE)
    (n : Nat) : strncmp_eq (strncpy_key k) k n = true := by
  rw [strncpy_key_of_lt hlen]
  exact strncmp_eq_append_replicate k _ n

/-- The scan loop comes back empty exactly when no node in the chain
strncmp-matches the key. -/
theorem find_loop_eq_none_iff (chain : List hashtable_node_t) (key : List Nat) :
    find_loop chain key = none ↔
      ∀ n ∈ chain, strncmp_eq n.key key HASHTABLE_KEY_SIZE = false := by
  induction chain with
  | nil => simp [find_loop]
  | cons n rest ih =>
    by_cases h : strncmp_eq n.key key HASHTABLE_KEY_SIZE
    · simp [find_loop, h]
    · have h0 : strncmp_eq n.key key HASHTABLE_KEY_SIZE = false := by
        simpa using h
      simp only [find_loop]
      rw [if_neg h]
      constructor
      · intro hmap
        have hrest : find_loop rest key = none := by
          cases hfind : find_loop rest key with
          | none => rfl
          | some j => rw [hfind] at hmap; simp at hmap
        intro m hm
        rcases List.mem_cons.mp hm with rfl | hm2
        · exact h0
        · exact (ih.mp hrest) m hm2
      · intro hall
        have hrest : find_loop rest key = none :=
          ih.mpr (fun m hm => hall m (List.mem_cons_of_mem _ hm))
        rw [hrest]
        rfl

/-- When the guard passes (key shorter than K), find is just the scan loop. -/
theorem find_by_key_of_lt (chain : List hashtable_node_t) {key : List Nat}
    (hlen : key.length < HASHTABLE_KEY_SIZE) :
    hashtable_node_find_by_key chain key = find_loop chain key := by
  unfold hashtable_node_find_by_key
  rw [if_neg]
  simp only [strnlen]
  omega

/-- Overwriting the value at the index found by the scan loop makes the get
loop return that value. -/
theorem get_loop_chain_set_value {chain : List hashtable_node_t} {key : List Nat}
    {i : Nat} (v : Int) (hfind : find_loop chain key = some i) :
    get_loop (chain_set_value chain i v) key = v := by
  induction chain generalizing i with
  | nil => simp [find_loop] at hfind
  | cons n rest ih =>
    by_cases h : strncmp_eq n.key key HASHTABLE_KEY_SIZE
    · simp only [find_loop] at hfind
      rw [if_pos h] at hfind
      injection hfind with hi
      subst hi
      simp [chain_set_value, get_loop, h]
    · simp only [find_loop] at hfind
      rw [if_neg h] at hfind
      cases hrest : find_loop rest key with
      | none => rw [hrest] at hfind; simp at hfind
      | some j =>
        rw [hrest] at hfind
        simp only [Option.map_some', Option.some.injEq] at hfind
        subst hfind
        show get_loop (chain_set_value (n :: rest) (j + 1) v) key = v
        simp only [chain_set_value]
        have h0 : strncmp_eq n.key key HASHTABLE_KEY_SIZE = false := by
          simpa using h
        simp only [get_loop, h0, Bool.false_eq_true, if_false]
        exact ih hrest

/-- When the scan loop finds nothing in a chain, the get loop passes over that
chain unchanged. -/
theorem get_loop_append_of_none {chain : List hashtable_node_t} {key : List Nat}
    (hfind : find_loop chain key = none) (l2 : List hashtable_node_t) :
    get_loop (chain ++ l2) key = get_loop l2 key := by
  induction chain with
  | nil => simp
  | cons n rest ih =>
    have hall := (find_loop_eq_none_iff _ _).mp hfind
    have hn : strncmp_eq n.key key HASHTABLE_KEY_SIZE = false := hall n (by simp)
    have hrest : find_loop rest key = none :=
      (find_loop_eq_none_iff _ _).mpr (fun m hm => hall m (List.mem_cons_of_mem _ hm))
    simp only [List.cons_append, get_loop, hn, Bool.false_eq_true, if_neg,
      not_false_eq_true]
    exact ih hrest

/-- The walk of `hashtable_node_insert` links exactly the head of a one-node
child chain at the end of the walked chain. -/
theorem insert_walk_single (l : List hashtable_node_t) (c : hashtable_node_t) :
    insert_walk l [c] = l ++ [c] := by
  induction l with
  | nil => rfl
  | cons p rest ih =>
    cases rest with
    | nil => rfl
    | cons q rest2 => simpa [insert_walk] using ih

/-- Inserting a child whose next is already NULL (as `create` guarantees)
appends that node to the chain, in both branches of the insert. -/
theorem insert_single (p : hashtable_node_t) (rest : List hashtable_node_t)
    (c : hashtable_node_t) :
    hashtable_node_insert (p :: rest) [c] = p :: (rest ++ [c]) := by
  cases rest with
  | nil => rfl
  | cons q rest2 => simp [hashtable_node_insert, insert_walk_single]

/-- Overwriting one value keeps the chain length. -/
theorem chain_set_value_length (chain : List hashtable_node_t) (i : Nat) (v : Int) :
    (chain_set_value chain i v).length = chain.length := by
  induction chain generalizing i with
  | nil => rfl
  | cons n rest ih =>
    cases i with
    | zero => rfl
    | succ j => simp [chain_set_value, ih]

/-- Overwriting one value keeps every stored key buffer. -/
theorem chain_set_value_map_key (chain : List hashtable_node_t) (i : Nat) (v : Int) :
    (chain_set_value chain i v).map hashtable_node_t.key =
      chain.map hashtable_node_t.key := by
  induction chain generalizing i with
  | nil => rfl
  | cons n rest ih =>
    cases i with
    | zero => simp [chain_set_value]
    | succ j => simp [chain_set_value, ih]

/-- A nonempty scan result exhibits a strncmp-matching node in the chain. -/
theorem find_loop_some_mem {chain : List hashtable_node_t} {key : List Nat} {i : Nat}
    (h : find_loop chain key = some i) :
    ∃ n ∈ chain, strncmp_eq n.key key HASHTABLE_KEY_SIZE = true := by
  by_contra hc
  push_neg at hc
  have hnone : find_loop chain key = none :=
    (find_loop_eq_none_iff _ _).mpr (fun n hn => by simpa using hc n hn)
  rw [hnone] at h
  cases h

/-- Central lemma: `hashtable_set` of a key shorter than K followed by
`hashtable_get` of the same key returns the value just set, on any table. -/
theorem get_set_eq (ht : hashtable_t) {k : List Nat} (v : Int)
    (hlen : k.length < HASHTABLE_KEY_SIZE) :
    hashtable_get (hashtable_set ht k v).ht k = v := by
  have hmatch : strncmp_eq (strncpy_key k) k HASHTABLE_KEY_SIZE = true :=
    strncmp_eq_strncpy_key hlen _
  simp only [hashtable_set]
  by_cases hemp : (ht.array (calculate_hash k)).isEmpty
  · rw [if_pos hemp]
    simp [hashtable_get, hashtable_node_create, get_loop, hmatch]
  · rw [if_neg hemp]
    rw [find_by_key_of_lt _ hlen]
    cases hfind : find_loop (ht.array (calculate_hash k)) k with
    | none =>
      have hne : ht.array (calculate_hash k) ≠ [] := by
        simpa [List.isEmpty_iff] using hemp
      obtain ⟨p, rest, hpr⟩ := List.exists_cons_of_ne_nil hne
      simp only [hashtable_get, hashtable_node_create, hashtable_t.write_array,
        if_pos rfl]
      rw [hpr, insert_single, ← List.cons_append]
      rw [← hpr]
      rw [if_true]
      rw [get_loop_append_of_none hfind]
      simp [get_loop, hmatch]
    | some i =>
      simp only [hashtable_get, hashtable_t.write_array, if_pos rfl]
      exact get_loop_chain_set_value v hfind

/-- After a set of a key shorter than K, the key's bucket chain holds a node
whose buffer strncmp-matches the key. -/
theorem set_chain_has_match (ht : hashtable_t) {k : List Nat} (v : Int)
    (hlen : k.length < HASHTABLE_KEY_SIZE) :
    ∃ n ∈ (hashtable_set ht k v).ht.array (calculate_hash k),
      strncmp_eq n.key k HASHTABLE_KEY_SIZE = true := by
  have hmatch : strncmp_eq (strncpy_key k) k HASHTABLE_KEY_SIZE = true :=
    strncmp_eq_strncpy_key hlen _
  simp only [hashtable_set]
  by_cases hemp : (ht.array (calculate_hash k)).isEmpty
  · rw [if_pos hemp]
    refine ⟨⟨strncpy_key k, v⟩, ?_, hmatch⟩
    simp [hashtable_node_create]
  · rw [if_neg hemp]
    rw [find_by_key_of_lt _ hlen]
    cases hfind : find_loop (ht.array (calculate_hash k)) k with
    | none =>
      have hne : ht.array (calculate_hash k) ≠ [] := by
        simpa [List.isEmpty_iff] using hemp
      obtain ⟨p, rest, hpr⟩ := List.exists_cons_of_ne_nil hne
      refine ⟨⟨strncpy_key k, v⟩, ?_, hmatch⟩
      simp only [hashtable_t.write_array, if_pos rfl, hashtable_node_create]
      rw [hpr, insert_single]
      simp
    | some i =>
      obtain ⟨n, hn, hm⟩ := find_loop_some_mem hfind
      have hkey : n.key ∈ (chain_set_value (ht.array (calculate_hash k)) i v).map
          hashtable_node_t.key := by
        rw [chain_set_value_map_key]
        exact List.mem_map_of_mem _ hn
      obtain ⟨n2, hn2, hk2⟩ := List.mem_map.mp hkey
      refine ⟨n2, ?_, by rw [hk2]; exact hm⟩
      simp only [hashtable_t.write_array, if_pos rfl]
      exact hn2

/-- One set call with a short key preserves pairwise-distinct stored key
buffers in every bucket chain. -/
theorem set_preserves_nodup (ht : hashtable_t) {k : List Nat} (v : Int)
    (hlen : k.length < HASHTABLE_KEY_SIZE)
    (hht : ∀ i, ((ht.array i).map hashtable_node_t.key).Nodup) :
    ∀ i, (((hashtable_set ht k v).ht.array i).map hashtable_node_t.key).Nodup := by
  intro i
  simp only [hashtable_set]
  by_cases hemp : (ht.array (calculate_hash k)).isEmpty
  · rw [if_pos hemp]
    simp only [hashtable_t.write_array]
    by_cases hi : i = calculate_hash k
    · simp [hi, hashtable_node_create]
    · simp only [if_neg hi]
      exact hht i
  · rw [if_neg hemp]
    rw [find_by_key_of_lt _ hlen]
    cases hfind : find_loop (ht.array (calculate_hash k)) k with
    | none =>
      simp only [hashtable_t.write_array]
      by_cases hi : i = calculate_hash k
      · simp only [if_pos hi]
        have hne : ht.array (calculate_hash k) ≠ [] := by
          simpa [List.isEmpty_iff] using hemp
        obtain ⟨p, rest, hpr⟩ := List.exists_cons_of_ne_nil hne
        rw [hashtable_node_create, hpr, insert_single, ← List.cons_append, ← hpr]
        have hnotin : strncpy_key k ∉
            (ht.array (calculate_hash k)).map hashtable_node_t.key := by
          intro hmem
          obtain ⟨n, hn, hk⟩ := List.mem_map.mp hmem
          have hfalse := (find_loop_eq_none_iff _ _).mp hfind n hn
          rw [hk] at hfalse
          rw [strncmp_eq_strncpy_key hlen] at hfalse
          cases hfalse
        rw [List.map_append]
        rw [List.nodup_append]
        refine ⟨hht _, List.nodup_singleton _, ?_⟩
        intro a ha hb
        simp only [List.map_cons, List.map_nil, List.mem_singleton] at hb
        rw [hb] at ha
        exact hnotin ha
      · simp only [if_neg hi]
        exact hht i
    | some j =>
      simp only [hashtable_t.write_array]
      by_cases hi : i = calculate_hash k
      · simp only [if_pos hi]
        rw [chain_set_value_map_key]
        exact hht _
      · simp only [if_neg hi]
        exact hht i

/-- Running any list of set calls with well-formed short keys preserves
pairwise-distinct stored key buffers in every bucket chain. -/
theorem run_sets_preserves_nodup (ops : List (List Nat × Int)) :
    ∀ ht : hashtable_t,
      (∀ kv ∈ ops, kv.1.length < HASHTABLE_KEY_SIZE) →
      (∀ i, ((ht.array i).map hashtable_node_t.key).Nodup) →
      ∀ i, (((run_sets ht ops).array i).map hashtable_node_t.key).Nodup := by
  induction ops with
  | nil => intro ht _ hht; exact hht
  | cons kv rest ih =>
    intro ht hops hht
    have hk := hops kv (by simp)
    exact ih _ (fun kv2 h2 => hops kv2 (List.mem_cons_of_mem _ h2))
      (set_preserves_nodup ht kv.2 hk hht)

/-- The hash loop computes the byte sum of the first K bytes remaining in
its index budget. -/
theorem hash_sum_eq_sum_take (k : List Nat) :
    ∀ i sum : Nat, hash_sum k i sum = sum + (k.take (HASHTABLE_KEY_SIZE - i)).sum := by
  induction k with
  | nil => intro i sum; simp [hash_sum]
  | cons b rest ih =>
    intro i sum
    by_cases hi : i < HASHTABLE_KEY_SIZE
    · have h32 : HASHTABLE_KEY_SIZE - i = (HASHTABLE_KEY_SIZE - (i + 1)) + 1 := by
        unfold HASHTABLE_KEY_SIZE at *
        omega
      rw [h32]
      simp only [hash_sum, if_pos hi, List.take_succ_cons, List.sum_cons]
      rw [ih]
      ring
    · have h0 : HASHTABLE_KEY_SIZE - i = 0 := by
        unfold HASHTABLE_KEY_SIZE at *
        omega
      simp [hash_sum, if_neg hi, h0]

/-- The hash is the byte sum of the first K bytes of the key, reduced mod N. -/
theorem calculate_hash_eq_sum (k : List Nat) :
    calculate_hash k = (k.take HASHTABLE_KEY_SIZE).sum % HASHTABLE_NODE_COUNT := by
  unfold calculate_hash
  rw [hash_sum_eq_sum_take]
  simp

/-! Claim theorems. -/

/-- Claim C1 (round trip): for every table t, every key k of length < K and
every integer v, `hashtable_set t k v` followed by `hashtable_get` of k on
the resulting table returns v. -/
theorem claim_C1_round_trip (ht : hashtable_t) (k : List Nat) (v : Int)
    (hlen : k.length < HASHTABLE_KEY_SIZE) :
    hashtable_get (hashtable_set ht k v).ht k = v :=
  get_set_eq ht v hlen

/-- Witness for C1 at the demo key of main and the value 111. -/
theorem claim_C1_round_trip_witness :
    eric.length < HASHTABLE_KEY_SIZE ∧
      hashtable_get (hashtable_set hashtable_create eric 111).ht eric = 111 :=
  ⟨by decide, claim_C1_round_trip hashtable_create eric 111 (by decide)⟩

/-- Claim C2: for every key, the hash is the sum of the first min(length, K)
byte values reduced modulo N, hence always a valid bucket index below N. -/
theorem claim_C2_hash_in_range (k : List Nat) :
    calculate_hash k = (k.take HASHTABLE_KEY_SIZE).sum % HASHTABLE_NODE_COUNT ∧
      calculate_hash k < HASHTABLE_NODE_COUNT := by
  refine ⟨calculate_hash_eq_sum k, ?_⟩
  unfold calculate_hash HASHTABLE_NODE_COUNT
  omega

/-- Counterexample to C3 as stated: starting from a fresh table, two set
calls with one and the same key of length K leave bucket 4 holding two nodes
with identical stored key buffers (find refuses keys of length ≥ K, so the
second set appends a duplicate instead of overwriting). -/
theorem claim_C3_counterexample :
    ¬ (((run_sets hashtable_create [(aKey32, 1), (aKey32, 2)]).array 4).map
        hashtable_node_t.key).Nodup := by
  decide

/-- Claim C3 amended: after any sequence of set calls whose keys all have
length < K, starting from a fresh table, the stored key buffers within each
bucket chain are pairwise distinct. -/
theorem claim_C3_amended (ops : List (List Nat × Int))
    (hops : ∀ kv ∈ ops, kv.1.length < HASHTABLE_KEY_SIZE) :
    ∀ i, (((run_sets hashtable_create ops).array i).map hashtable_node_t.key).Nodup :=
  run_sets_preserves_nodup ops hashtable_create hops
    (fun _ => by simp [hashtable_create])

/-- Demo sequence with two colliding keys and an overwrite. -/
def demoOps : List (List Nat × Int) := [(eric, 1), (rice, 2), (eric, 3)]

/-- Witness for the amended C3 on the demo sequence, at the bucket that both
demo keys hash to. -/
theorem claim_C3_amended_witness :
    (∀ kv ∈ demoOps, kv.1.length < HASHTABLE_KEY_SIZE) ∧
      (((run_sets hashtable_create demoOps).array (calculate_hash eric)).map
        hashtable_node_t.key).Nodup :=
  ⟨by decide, claim_C3_amended demoOps (by decide) (calculate_hash eric)⟩

/-- Claim C4 (overwrite): setting k to v1 and then to v2 makes get return
v2, and the second set leaves the node count of k's bucket chain unchanged. -/
theorem claim_C4_overwrite (ht : hashtable_t) (k : List Nat) (v1 v2 : Int)
    (hlen : k.length < HASHTABLE_KEY_SIZE) :
    hashtable_get (hashtable_set (hashtable_set ht k v1).ht k v2).ht k = v2 ∧
      ((hashtable_set (hashtable_set ht k v1).ht k v2).ht.array
          (calculate_hash k)).length =
        ((hashtable_set ht k v1).ht.array (calculate_hash k)).length := by
  obtain ⟨n, hn, hm⟩ := set_chain_has_match ht v1 hlen
  have hne : (hashtable_set ht k v1).ht.array (calculate_hash k) ≠ [] := by
    intro he
    rw [he] at hn
    cases hn
  have hemp : ¬ ((hashtable_set ht k v1).ht.array (calculate_hash k)).isEmpty = true := by
    simpa [List.isEmpty_iff] using hne
  have hfind_ne :
      find_loop ((hashtable_set ht k v1).ht.array (calculate_hash k)) k ≠ none := by
    rw [Ne, find_loop_eq_none_iff]
    push_neg
    exact ⟨n, hn, by simp [hm]⟩
  refine ⟨get_set_eq _ v2 hlen, ?_⟩
  cases hfind : find_loop ((hashtable_set ht k v1).ht.array (calculate_hash k)) k with
  | none => exact absurd hfind hfind_ne
  | some i =>
    conv_lhs => rw [hashtable_set]
    rw [if_neg hemp]
    rw [find_by_key_of_lt _ hlen, hfind]
    simp only [hashtable_t.write_array, if_pos rfl, if_true]
    exact chain_set_value_length _ i v2

/-- Witness for C4 at the demo key with two different values. -/
theorem claim_C4_overwrite_witness :
    eric.length < HASHTABLE_KEY_SIZE ∧
      (hashtable_get
          (hashtable_set (hashtable_set hashtable_create eric 111).ht eric 222).ht
          eric = 222 ∧
        ((hashtable_set (hashtable_set hashtable_create eric 111).ht eric 222).ht.array
            (calculate_hash eric)).length =
          ((hashtable_set hashtable_create eric 111).ht.array
              (calculate_hash eric)).length) :=
  ⟨by decide, claim_C4_overwrite hashtable_create eric 111 222 (by decide)⟩

/-- Claim C5 is refuted by the code: calling set on a table where the key is
already stored still performs exactly one node allocation (the node is then
neither linked nor freed), while the stored node is overwritten in place and
the chain stays at one node. -/
theorem claim_C5_overwrite_allocates :
    (hashtable_set (hashtable_set hashtable_create eric 111).ht eric 222).allocated
        = 1 ∧
      hashtable_get
          (hashtable_set (hashtable_set hashtable_create eric 111).ht eric 222).ht
          eric = 222 ∧
      ((hashtable_set (hashtable_set hashtable_create eric 111).ht eric 222).ht.array
          (calculate_hash eric)).length = 1 := by
  decide

/-- Counterexample to C6 as stated: for a key of length exactly K, create
copies all K key bytes (more than the claimed K−1) and writes no terminator
anywhere in the K-byte buffer. -/
theorem claim_C6_counterexample :
    ((hashtable_node_create aKey32 5).headD ⟨[], 0⟩).key = List.replicate 32 97 ∧
      ¬ 0 ∈ ((hashtable_node_create aKey32 5).headD ⟨[], 0⟩).key := by
  decide

/-- Claim C6 amended: a successful create yields one node with next none and
the given value; the buffer stores the whole key followed by zero-fill
termination when the key length is < K, but for length ≥ K it stores exactly
the first K key bytes and, for a well-formed key, contains no terminator. -/
theorem claim_C6_amended (k : List Nat) (v : Int) (hvk : ValidKey k) :
    ∃ node : hashtable_node_t,
      hashtable_node_create k v = [node] ∧ node.value = v ∧
        (k.length < HASHTABLE_KEY_SIZE →
          node.key = k ++ List.replicate (HASHTABLE_KEY_SIZE - k.length) 0) ∧
        (HASHTABLE_KEY_SIZE ≤ k.length →
          node.key = k.take HASHTABLE_KEY_SIZE ∧ ¬ 0 ∈ node.key) := by
  refine ⟨⟨strncpy_key k, v⟩, rfl, rfl, fun hlt => strncpy_key_of_lt hlt, fun hge => ?_⟩
  have hkey : strncpy_key k = k.take HASHTABLE_KEY_SIZE := by
    unfold strncpy_key
    rw [Nat.sub_eq_zero_of_le hge]
    simp
  refine ⟨hkey, ?_⟩
  show ¬ 0 ∈ strncpy_key k
  rw [hkey]
  intro h0
  have h0k : 0 ∈ k := List.take_subset _ _ h0
  exact absurd (hvk 0 h0k).1 (lt_irrefl 0)

/-- Witness for the amended C6 at a well-formed key of length K + 1. -/
theorem claim_C6_amended_witness :
    ValidKey aKey33 ∧
      ∃ node : hashtable_node_t,
        hashtable_node_create aKey33 7 = [node] ∧ node.value = 7 ∧
          (aKey33.length < HASHTABLE_KEY_SIZE →
            node.key = aKey33 ++ List.replicate (HASHTABLE_KEY_SIZE - aKey33.length) 0) ∧
          (HASHTABLE_KEY_SIZE ≤ aKey33.length →
            node.key = aKey33.take HASHTABLE_KEY_SIZE ∧ ¬ 0 ∈ node.key) :=
  ⟨by decide, claim_C6_amended aKey33 7 (by decide)⟩

/-- Claim C7 (absence default): on a freshly created table every bucket is
empty, so get returns 0 for every key. -/
theorem claim_C7_absence_default (k : List Nat) :
    hashtable_get hashtable_create k = 0 := rfl

/-- Claim C8 (hash determinism): the hash depends only on the first
min(length, K) bytes of the key, and any two keys whose first min(length, K)
bytes have the same sum — for instance permutations of one another — hash to
the same bucket. -/
theorem claim_C8_hash_determinism :
    (∀ k : List Nat, calculate_hash k = calculate_hash (k.take HASHTABLE_KEY_SIZE)) ∧
      ∀ k1 k2 : List Nat,
        (k1.take HASHTABLE_KEY_SIZE).sum = (k2.take HASHTABLE_KEY_SIZE).sum →
          calculate_hash k1 = calculate_hash k2 := by
  constructor
  · intro k
    rw [calculate_hash_eq_sum, calculate_hash_eq_sum, List.take_take]
    simp
  · intro k1 k2 h
    rw [calculate_hash_eq_sum, calculate_hash_eq_sum, h]

/-- Witness for C8 on the anagram pair from the spec discussion. -/
theorem claim_C8_hash_determinism_witness :
    (eric.take HASHTABLE_KEY_SIZE).sum = (rice.take HASHTABLE_KEY_SIZE).sum ∧
      calculate_hash eric = calculate_hash rice :=
  ⟨by decide, claim_C8_hash_determinism.2 eric rice (by decide)⟩

/-- Counterexample to C9 as stated: in the branch where chainHead.next is
none, the insert links the new node without clearing its successor, so a new
node arriving with a successor keeps it — the result is a three-node chain,
not the two-node chain the claim requires. -/
theorem claim_C9_counterexample :
    hashtable_node_insert [⟨[], 1⟩] [⟨[], 2⟩, ⟨[], 3⟩] =
        [⟨[], 1⟩, ⟨[], 2⟩, ⟨[], 3⟩] ∧
      hashtable_node_insert [⟨[], 1⟩] [⟨[], 2⟩, ⟨[], 3⟩] ≠ [⟨[], 1⟩, ⟨[], 2⟩] := by
  decide

/-- Claim C9 amended: only the walking branch of the insert forces the new
node's successor to none; the early branch (chainHead.next none) leaves the
new node's successor untouched. For a new node whose successor is already
none — which is what create guarantees and the program always passes — the
insert appends exactly that node at the chain tail in every branch. -/
theorem claim_C9_amended (p : hashtable_node_t) (rest : List hashtable_node_t)
    (c : hashtable_node_t) :
    hashtable_node_insert (p :: rest) [c] = p :: (rest ++ [c]) :=
  insert_single p rest c

/-- Claim C10: get performs no key length check of its own — setting and
then getting a key of length K + 1 returns the stored value, because the
stored buffer agrees with the key on the first K compared bytes; yet find,
the lookup used by set, returns not-found for every key of length ≥ K. -/
theorem claim_C10_get_no_length_check :
    hashtable_get (hashtable_set hashtable_create aKey33 111).ht aKey33 = 111 ∧
      ∀ (chain : List hashtable_node_t) (k : List Nat),
        HASHTABLE_KEY_SIZE ≤ k.length → hashtable_node_find_by_key chain k = none := by
  constructor
  · decide
  · intro chain k hk
    have hg : HASHTABLE_KEY_SIZE ≤ strnlen k HASHTABLE_KEY_SIZE := by
      unfold strnlen HASHTABLE_KEY_SIZE at *
      omega
    unfold hashtable_node_find_by_key
    rw [if_pos hg]

/-- Witness for C10: the oversized demo key, stored and then refused by find
on the very chain that holds it. -/
theorem claim_C10_get_no_length_check_witness :
    hashtable_get (hashtable_set hashtable_create aKey33 111).ht aKey33 = 111 ∧
      HASHTABLE_KEY_SIZE ≤ aKey33.length ∧
      hashtable_node_find_by_key
          ((hashtable_set hashtable_create aKey33 111).ht.array
            (calculate_hash aKey33)) aKey33 = none :=
  ⟨claim_C10_get_no_length_check.1, by decide,
    claim_C10_get_no_length_check.2
      ((hashtable_set hashtable_create aKey33 111).ht.array (calculate_hash aKey33))
      aKey33 (by decide)⟩

end Hashtable
